import Mathlib

/-!
Shallow embedding of `fiemap-rs` (src/fiemap/src/lib.rs): a paged FIEMAP
ioctl reader exposed as a fallible iterator.  The kernel is modelled as an
abstract stateful oracle; the ioctl's in-place buffer mutation is explicit
state passing.  Machine integers are `Nat` with an explicit `% 2^64` where
u64 wrap-around matters (the `fm_start` continuation write).
-/

/-- The `PAGESIZE` constant (line 10): slots per kernel query. -/
def PAGESIZE : Nat := 8

/-- The u64 modulus. -/
def U64MOD : Nat := 2 ^ 64

namespace FiemapExtentFlags

/-- Last extent in file (line 179). -/
def LAST : Nat := 0x00000001

/-- Data location unknown (line 181). -/
def UNKNOWN : Nat := 0x00000002

/-- Location still pending (line 183). -/
def DELALLOC : Nat := 0x00000004

/-- Data can not be read while fs is unmounted (line 185). -/
def ENCODED : Nat := 0x00000008

/-- Data is encrypted by fs (line 187). -/
def DATA_ENCRYPTED : Nat := 0x00000080

/-- Extent offsets may not be block aligned (line 189). -/
def NOT_ALIGNED : Nat := 0x00000100

/-- Data mixed with metadata (line 191). -/
def DATA_INLINE : Nat := 0x00000200

/-- Multiple files in block (line 193). -/
def DATA_TAIL : Nat := 0x00000400

/-- Space allocated, but no data (line 195). -/
def UNWRITTEN : Nat := 0x00000800

/-- File does not natively support extents (line 197). -/
def MERGED : Nat := 0x00001000

/-- Space shared with other files (line 199). -/
def SHARED : Nat := 0x00002000

/-- bitflags `contains`: every bit of `flag` is set in `bits`. -/
def contains (bits flag : Nat) : Bool := bits &&& flag == flag

/-- bitflags decoding of the raw kernel u32: the value is kept verbatim
(reduced to the u32 range); unknown and reserved bits are preserved, not
rejected. -/
def from_bits_retain (v : Nat) : Nat := v % 2 ^ 32

end FiemapExtentFlags

/-- Struct `FiemapExtent` (lines 140-149): one extent record, including the
reserved fields the kernel writes but the library never reads. -/
structure FiemapExtent where
  fe_logical : Nat
  fe_physical : Nat
  fe_length : Nat
  fe_reserved64 : Nat × Nat
  fe_flags : Nat
  fe_reserved : Nat × Nat × Nat
deriving DecidableEq

/-- Constructor `FiemapExtent::new` (lines 151-162): all fields zeroed. -/
def FiemapExtent.new : FiemapExtent :=
  { fe_logical := 0, fe_physical := 0, fe_length := 0,
    fe_reserved64 := (0, 0), fe_flags := 0, fe_reserved := (0, 0, 0) }

/-- Struct `C_fiemap` (lines 114-124): the ioctl request/response buffer.
`fm_extents` is the fixed-size slot array, modelled as a list whose length
is `PAGESIZE` in every reachable state. -/
structure C_fiemap where
  fm_start : Nat
  fm_length : Nat
  fm_flags : Nat
  fm_mapped_extents : Nat
  fm_extent_count : Nat
  fm_reserved : Nat
  fm_extents : List FiemapExtent
deriving DecidableEq

/-- Constructor `C_fiemap::new` (lines 126-138). -/
def C_fiemap.new : C_fiemap :=
  { fm_start := 0, fm_length := U64MOD - 1, fm_flags := 0,
    fm_mapped_extents := 0, fm_extent_count := PAGESIZE, fm_reserved := 0,
    fm_extents := List.replicate PAGESIZE FiemapExtent.new }

/-- Struct `Fiemap` (lines 16-24): the reader state.  The owned `File` and raw fd
are resource handles with no bearing on the value-level state machine and
are omitted here. -/
structure Fiemap where
  fiemap : C_fiemap
  cur_idx : Nat
  size : Nat
  ended : Bool
deriving DecidableEq

/-- The reader state produced by `Fiemap::new` (lines 39-51), shared by
both constructors; `Fiemap::new_from_path` (lines 55-59) builds exactly
this state after a successful open. -/
def Fiemap.new : Fiemap :=
  { fiemap := C_fiemap.new, cur_idx := 0, size := 0, ended := false }

/-- The error kinds the reader distinguishes: `ErrorKind::Interrupted`
(retried, line 95) versus any other OS error (fatal, lines 98-99). -/
inductive ErrKind where
  | interrupted
  | other (code : Nat)
deriving DecidableEq

/-- One ioctl outcome: either the kernel filled the first
`extents.length` slots and set `fm_mapped_extents` accordingly, or the
call failed with an OS error. -/
inductive IoctlResult where
  | ok (extents : List FiemapExtent)
  | err (k : ErrKind)
deriving DecidableEq

/-- Constructor `Fiemap::new_from_path` (lines 55-59): `File::open` may fail; on
success the reader is exactly `Fiemap.new`.  The open outcome is passed in
as a parameter since the filesystem is external. -/
def Fiemap.new_from_path (openResult : Except ErrKind Unit) : Except ErrKind Fiemap :=
  match openResult with
  | .error e => .error e
  | .ok _ => .ok Fiemap.new

/-- An abstract kernel: given its own state and the request buffer (it
reads `fm_start` and `fm_extent_count`), it returns its next state and an
ioctl outcome, or `none` when the model has no response (the run is then
stuck, which never happens for the kernels used below). -/
def Kernel (σ : Type) : Type := σ → C_fiemap → Option (σ × IoctlResult)

/-- A kernel replaying a fixed list of responses, ignoring the request:
used to exercise the reader against arbitrary response sequences. -/
def traceKernel : Kernel (List IoctlResult) := fun tr _ =>
  match tr with
  | [] => none
  | r :: rest => some (rest, r)

/-- An honest FIEMAP kernel for a file whose full extent map is `all`: it
reports, in order, the extents whose byte range extends past the requested
`fm_start`, up to `fm_extent_count` of them.  (`fm_length` is always
`u64::MAX` in this library, so the request range is unbounded above.) -/
def honestKernel (all : List FiemapExtent) : Kernel Unit := fun _ req =>
  some ((), .ok ((all.filter fun e =>
    req.fm_start < e.fe_logical + e.fe_length).take req.fm_extent_count))

/-- Lines 62-66 of `get_extents`: if a previous query returned at least
one extent, rewrite `fm_start` to `fe_logical + fe_length` of the last
filled slot (u64 addition).  Returns `none` when the slot index is out of
bounds, which in Rust is an array-index panic. -/
def Fiemap.get_extents_pre (st : Fiemap) : Option Fiemap :=
  if st.size ≠ 0 then
    match st.fiemap.fm_extents[st.size - 1]? with
    | none => none
    | some last =>
      some { st with fiemap :=
        { st.fiemap with
          fm_start := (last.fe_logical + last.fe_length) % U64MOD } }
  else
    some st

/-- Lines 68-82 of `get_extents`, after the ioctl returned `r`: on
failure the error is propagated and the reader state is untouched; on
success the kernel wrote the first `extents.length` slots and the mapped
count, the cursor is reset, `size` records the count, and `ended` is set
when the count is zero or the last filled slot carries `LAST`.  Returns
`none` on an out-of-bounds slot index (a Rust panic). -/
def Fiemap.get_extents_post (r : IoctlResult) (st : Fiemap) :
    Option (Fiemap × Option ErrKind) :=
  match r with
  | .err k => some (st, some k)
  | .ok es =>
    let req1 : C_fiemap :=
      { st.fiemap with
        fm_mapped_extents := es.length,
        fm_extents :=
          (es ++ st.fiemap.fm_extents.drop es.length).take
            st.fiemap.fm_extents.length }
    let st1 : Fiemap := { st with fiemap := req1, cur_idx := 0, size := es.length }
    if es.length = 0 then
      some ({ st1 with ended := true }, none)
    else
      match req1.fm_extents[es.length - 1]? with
      | none => none
      | some last =>
        if FiemapExtentFlags.contains last.fe_flags FiemapExtentFlags.LAST then
          some ({ st1 with ended := true }, none)
        else
          some (st1, none)

/-- Outcome of the retry loop of `next` (lines 94-100). -/
inductive LoopOut (σ : Type) where
  | success (ks : σ) (st : Fiemap)
  | failure (ks : σ) (st : Fiemap) (code : Nat)
  | panicked
  | stuck
deriving DecidableEq

/-- The `while let Err(e) = self.get_extents()` loop (lines 94-100): each
iteration reruns `get_extents` in full (the `fm_start` rewrite, the ioctl,
the post-processing); `ErrorKind::Interrupted` retries, any other error
exits the loop as a failure.  `fuel` bounds the number of iterations; it
only ever binds when the kernel model keeps answering `interrupted`. -/
def queryLoop {σ : Type} (K : Kernel σ) : Nat → σ → Fiemap → LoopOut σ
  | 0, _, _ => .stuck
  | fuel + 1, ks, st =>
    match st.get_extents_pre with
    | none => .panicked
    | some st1 =>
      match K ks st1.fiemap with
      | none => .stuck
      | some (ks1, r) =>
        match Fiemap.get_extents_post r st1 with
        | none => .panicked
        | some (st2, none) => .success ks1 st2
        | some (st2, some .interrupted) => queryLoop K fuel ks1 st2
        | some (st2, some (.other c)) => .failure ks1 st2 c

instance {ε α : Type} [DecidableEq ε] [DecidableEq α] : DecidableEq (Except ε α) := fun
  | .ok a, .ok b =>
    if h : a = b then .isTrue (by rw [h])
    else .isFalse (by intro he; cases he; exact h rfl)
  | .ok _, .error _ => .isFalse (by intro h; cases h)
  | .error _, .ok _ => .isFalse (by intro h; cases h)
  | .error a, .error b =>
    if h : a = b then .isTrue (by rw [h])
    else .isFalse (by intro he; cases he; exact h rfl)

/-- Outcome of one pull (`Iterator::next`): a yielded item (or `none` for
end of sequence) with the successor reader and kernel states, a Rust
panic, or a stuck kernel model. -/
inductive NextOut (σ : Type) where
  | out (ks : σ) (st : Fiemap) (item : Option (Except ErrKind FiemapExtent))
  | panicked
  | stuck
deriving DecidableEq

/-- Lines 108-110: read the slot at `cur_idx`, advance the cursor, yield
the record.  `none` from the lookup is a Rust index panic. -/
def Fiemap.emit {σ : Type} (ks : σ) (st : Fiemap) : NextOut σ :=
  match st.fiemap.fm_extents[st.cur_idx]? with
  | none => .panicked
  | some e => .out ks { st with cur_idx := st.cur_idx + 1 } (some (.ok e))

/-- Method `Iterator::next` (lines 88-111): drain the buffer, else if exhausted
yield nothing, else query (with retry on interruption), marking the
reader exhausted and yielding the error on fatal failure, yielding
nothing on an empty batch, and otherwise yielding slot 0. -/
def Fiemap.next {σ : Type} (K : Kernel σ) (fuel : Nat) (ks : σ) (st : Fiemap) :
    NextOut σ :=
  if st.size ≤ st.cur_idx then
    if st.ended then .out ks st none
    else
      match queryLoop K fuel ks st with
      | .stuck => .stuck
      | .panicked => .panicked
      | .failure ks1 st1 c =>
        .out ks1 { st1 with ended := true } (some (.error (.other c)))
      | .success ks1 st1 =>
        if st1.size = 0 then .out ks1 st1 none
        else Fiemap.emit ks1 st1
  else Fiemap.emit ks st

/-- Repeatedly pull until the sequence yields `none` (or the model runs
out of fuel, panics or gets stuck), collecting the yielded items. -/
def Fiemap.run {σ : Type} (K : Kernel σ) : Nat → σ → Fiemap → List (Except ErrKind FiemapExtent)
  | 0, _, _ => []
  | fuel + 1, ks, st =>
    match Fiemap.next K fuel ks st with
    | .out ks1 st1 (some it) => it :: Fiemap.run K fuel ks1 st1
    | _ => []

open FiemapExtentFlags in
/-- The 32-bit value whose set bits are exactly the subset of the eleven
named flag bits selected by the Booleans, in declaration order. -/
def encodeFlagSubset (b0 b1 b2 b3 b4 b5 b6 b7 b8 b9 b10 : Bool) : Nat :=
  (if b0 then LAST else 0) + (if b1 then UNKNOWN else 0) +
  (if b2 then DELALLOC else 0) + (if b3 then ENCODED else 0) +
  (if b4 then DATA_ENCRYPTED else 0) + (if b5 then NOT_ALIGNED else 0) +
  (if b6 then DATA_INLINE else 0) + (if b7 then DATA_TAIL else 0) +
  (if b8 then UNWRITTEN else 0) + (if b9 then MERGED else 0) +
  (if b10 then SHARED else 0)

/-- State `b` agrees with `a` except possibly in the buffer's `fm_start`
field: used to state that a failed query leaves the cursor, the count and
the slots untouched. -/
def OnlyStartDiffers (a b : Fiemap) : Prop :=
  ∃ s, b = { a with fiemap := { a.fiemap with fm_start := s } }

/-- The precondition on the kernel assumed by the safety claim: a
successful ioctl never reports more extents than the request asked for. -/
def KernelBounded {σ : Type} (K : Kernel σ) : Prop :=
  ∀ ks req ks1 es, K ks req = some (ks1, .ok es) → es.length ≤ req.fm_extent_count

/-- The reader's structural invariant. -/
def ReaderInv (st : Fiemap) : Prop :=
  st.cur_idx ≤ st.size ∧ st.size ≤ PAGESIZE ∧
  st.fiemap.fm_extents.length = PAGESIZE ∧
  st.fiemap.fm_extent_count = PAGESIZE

/-- Reader states reachable from construction by repeated pulls. -/
inductive Reach {σ : Type} (K : Kernel σ) : σ → Fiemap → Prop where
  | init (ks : σ) : Reach K ks Fiemap.new
  | step {ks st fuel ks1 st1 it} : Reach K ks st →
      Fiemap.next K fuel ks st = NextOut.out ks1 st1 it → Reach K ks1 st1

/-- A concrete extent carrying the `LAST` flag, used as witness input. -/
def sampleLastExt : FiemapExtent :=
  { fe_logical := 0, fe_physical := 0, fe_length := 4,
    fe_reserved64 := (0, 0), fe_flags := 1, fe_reserved := (0, 0, 0) }

/-- The reader state after a successful one-extent query of
`sampleLastExt` from the initial state, used as witness data. -/
def sampleLastSt : Fiemap :=
  { fiemap := { fm_start := 0, fm_length := 2 ^ 64 - 1, fm_flags := 0,
                fm_mapped_extents := 1, fm_extent_count := 8,
                fm_reserved := 0,
                fm_extents := sampleLastExt :: List.replicate 7 FiemapExtent.new },
    cur_idx := 0, size := 1, ended := true }

lemma onlyStartDiffers_refl (a : Fiemap) : OnlyStartDiffers a a :=
  ⟨a.fiemap.fm_start, rfl⟩

lemma onlyStartDiffers_trans {a b c : Fiemap}
    (h1 : OnlyStartDiffers a b) (h2 : OnlyStartDiffers b c) :
    OnlyStartDiffers a c := by
  obtain ⟨s1, rfl⟩ := h1
  obtain ⟨s2, rfl⟩ := h2
  exact ⟨s2, rfl⟩

lemma get_extents_pre_onlyStart {st st1 : Fiemap}
    (h : st.get_extents_pre = some st1) : OnlyStartDiffers st st1 := by
  unfold Fiemap.get_extents_pre at h
  split at h
  · split at h
    · cases h
    · injection h with h1
      exact ⟨_, h1.symm⟩
  · injection h with h1
    rw [← h1]
    exact onlyStartDiffers_refl st

lemma get_extents_pre_idem {st st1 : Fiemap}
    (h : st.get_extents_pre = some st1) : st1.get_extents_pre = some st1 := by
  unfold Fiemap.get_extents_pre at h ⊢
  by_cases hsz : st.size ≠ 0
  · rw [if_pos hsz] at h
    cases hl : st.fiemap.fm_extents[st.size - 1]? with
    | none => rw [hl] at h; cases h
    | some last =>
      rw [hl] at h
      injection h with h1
      subst h1
      rw [if_pos hsz, hl]
  · rw [if_neg hsz] at h
    injection h with h1
    subst h1
    rw [if_neg hsz]

lemma emit_out {σ : Type} {ks ks1 : σ} {st st1 : Fiemap}
    {it : Option (Except ErrKind FiemapExtent)}
    (h : Fiemap.emit ks st = .out ks1 st1 it) :
    ∃ e, st.fiemap.fm_extents[st.cur_idx]? = some e ∧ it = some (.ok e) ∧
      ks1 = ks ∧ st1 = { st with cur_idx := st.cur_idx + 1 } := by
  unfold Fiemap.emit at h
  cases hl : st.fiemap.fm_extents[st.cur_idx]? with
  | none => rw [hl] at h; cases h
  | some e =>
    rw [hl] at h
    injection h with h1 h2 h3
    exact ⟨e, rfl, h3.symm, h1.symm, h2.symm⟩

lemma next_ended {σ : Type} (K : Kernel σ) (fuel : Nat) (ks : σ) {st : Fiemap}
    (h1 : st.ended = true) (h2 : st.size ≤ st.cur_idx) :
    Fiemap.next K fuel ks st = .out ks st none := by
  unfold Fiemap.next
  rw [if_pos h2, h1]
  simp

open FiemapExtentFlags in
/-- C8: flag decoding is a faithful round-trip: for every subset of the
eleven named flag bits, the 32-bit value whose set bits are exactly that
subset satisfies the `contains` test for exactly the selected named flags,
each bit individually and in combination with no cross-contamination; and
an arbitrary u32, reserved bits included, is decoded verbatim (preserved,
not rejected). -/
theorem C8_flag_roundtrip :
    (∀ b0 b1 b2 b3 b4 b5 b6 b7 b8 b9 b10 : Bool,
      contains (encodeFlagSubset b0 b1 b2 b3 b4 b5 b6 b7 b8 b9 b10) LAST = b0 ∧
      contains (encodeFlagSubset b0 b1 b2 b3 b4 b5 b6 b7 b8 b9 b10) UNKNOWN = b1 ∧
      contains (encodeFlagSubset b0 b1 b2 b3 b4 b5 b6 b7 b8 b9 b10) DELALLOC = b2 ∧
      contains (encodeFlagSubset b0 b1 b2 b3 b4 b5 b6 b7 b8 b9 b10) ENCODED = b3 ∧
      contains (encodeFlagSubset b0 b1 b2 b3 b4 b5 b6 b7 b8 b9 b10) DATA_ENCRYPTED = b4 ∧
      contains (encodeFlagSubset b0 b1 b2 b3 b4 b5 b6 b7 b8 b9 b10) NOT_ALIGNED = b5 ∧
      contains (encodeFlagSubset b0 b1 b2 b3 b4 b5 b6 b7 b8 b9 b10) DATA_INLINE = b6 ∧
      contains (encodeFlagSubset b0 b1 b2 b3 b4 b5 b6 b7 b8 b9 b10) DATA_TAIL = b7 ∧
      contains (encodeFlagSubset b0 b1 b2 b3 b4 b5 b6 b7 b8 b9 b10) UNWRITTEN = b8 ∧
      contains (encodeFlagSubset b0 b1 b2 b3 b4 b5 b6 b7 b8 b9 b10) MERGED = b9 ∧
      contains (encodeFlagSubset b0 b1 b2 b3 b4 b5 b6 b7 b8 b9 b10) SHARED = b10) ∧
    (∀ v : Nat, v < 2 ^ 32 → from_bits_retain v = v) := by
  constructor
  · decide
  · intro v hv
    exact Nat.mod_eq_of_lt hv

/-- Witness for C8 at a concrete u32 with reserved bits set. -/
theorem C8_flag_roundtrip_witness :
    0xDEADBEEF < 2 ^ 32 ∧ FiemapExtentFlags.from_bits_retain 0xDEADBEEF = 0xDEADBEEF :=
  ⟨by decide, C8_flag_roundtrip.2 0xDEADBEEF (by decide)⟩

/-- C9: both constructors yield a reader in the identical initial state:
cursor 0, returned count 0, not exhausted, resume offset 0, query range
length `u64::MAX`, requested capacity 8 slots (count field and slot
array); a successful `new_from_path` yields exactly the state `new`
yields.  No kernel interaction occurs at construction: the constructors
take no kernel oracle at all, so the first query can only happen at the
first pull. -/
theorem C9_initial_state :
    (Fiemap.new.cur_idx = 0 ∧ Fiemap.new.size = 0 ∧ Fiemap.new.ended = false ∧
     Fiemap.new.fiemap.fm_start = 0 ∧
     Fiemap.new.fiemap.fm_length = 2 ^ 64 - 1 ∧
     Fiemap.new.fiemap.fm_extent_count = 8 ∧
     Fiemap.new.fiemap.fm_mapped_extents = 0 ∧
     Fiemap.new.fiemap.fm_extents.length = 8) ∧
    (∀ r st, Fiemap.new_from_path r = .ok st → st = Fiemap.new) := by
  refine ⟨by decide, ?_⟩
  intro r st h
  cases r with
  | error e => cases h
  | ok u =>
    unfold Fiemap.new_from_path at h
    injection h with h1
    exact h1.symm

/-- Witness for C9: `new_from_path` on a successful open produces the
shared initial state. -/
theorem C9_initial_state_witness :
    Fiemap.new_from_path (Except.ok ()) = Except.ok Fiemap.new ∧
      Fiemap.new = Fiemap.new :=
  ⟨by decide, C9_initial_state.2 (Except.ok ()) Fiemap.new (by decide)⟩

lemma post_err_char {r : IoctlResult} {st st2 : Fiemap} {k : ErrKind}
    (h : Fiemap.get_extents_post r st = some (st2, some k)) :
    r = .err k ∧ st2 = st := by
  cases r with
  | err k' =>
    unfold Fiemap.get_extents_post at h
    simp only [Option.some.injEq, Prod.mk.injEq] at h
    obtain ⟨h1, h2⟩ := h
    exact ⟨by rw [h2], h1.symm⟩
  | ok es =>
    exfalso
    unfold Fiemap.get_extents_post at h
    simp only [] at h
    split at h
    · simp at h
    · split at h
      · cases h
      · split at h <;> simp at h

lemma post_ok_nil (st : Fiemap) :
    Fiemap.get_extents_post (.ok []) st =
      some ({ st with
              fiemap := { st.fiemap with fm_mapped_extents := 0 },
              cur_idx := 0, size := 0, ended := true }, none) := by
  unfold Fiemap.get_extents_post
  simp [List.take_length]

lemma post_ok_char {es : List FiemapExtent} {st st1 : Fiemap}
    (h : Fiemap.get_extents_post (.ok es) st = some (st1, none)) :
    st1.cur_idx = 0 ∧ st1.size = es.length ∧
    st1.fiemap.fm_extent_count = st.fiemap.fm_extent_count ∧
    st1.fiemap.fm_extents.length = st.fiemap.fm_extents.length ∧
    (st1.size = 0 → st1.ended = true) := by
  unfold Fiemap.get_extents_post at h
  simp only [] at h
  split at h
  case isTrue hz =>
    simp only [Option.some.injEq, Prod.mk.injEq, and_true] at h
    subst h
    refine ⟨rfl, rfl, rfl, ?_, fun _ => rfl⟩
    simp only [List.length_take, List.length_append, List.length_drop]
    omega
  case isFalse hz =>
    split at h
    · cases h
    · rename_i last hl
      split at h <;>
      · simp only [Option.some.injEq, Prod.mk.injEq, and_true] at h
        subst h
        refine ⟨rfl, rfl, rfl, ?_, fun hc => absurd hc hz⟩
        simp only [List.length_take, List.length_append, List.length_drop]
        omega

lemma queryLoop_failure_char {σ : Type} (K : Kernel σ) :
    ∀ fuel (ks : σ) (st : Fiemap) ks1 st1 c,
      queryLoop K fuel ks st = .failure ks1 st1 c → OnlyStartDiffers st st1 := by
  intro fuel
  induction fuel with
  | zero => intro ks st ks1 st1 c h; cases h
  | succ n ih =>
    intro ks st ks1 st1 c h
    unfold queryLoop at h
    split at h
    · cases h
    · rename_i stB hpre
      split at h
      · cases h
      · rename_i p ks' r hq
        split at h
        · cases h
        · cases h
        · rename_i st2 hpost
          obtain ⟨-, hst2⟩ := post_err_char hpost
          subst hst2
          exact onlyStartDiffers_trans (get_extents_pre_onlyStart hpre) (ih _ _ _ _ _ h)
        · rename_i st2 c' hpost
          obtain ⟨-, hst2⟩ := post_err_char hpost
          injection h with h1 h2 h3
          subst h2
          subst hst2
          exact get_extents_pre_onlyStart hpre

lemma queryLoop_success_char {σ : Type} (K : Kernel σ) :
    ∀ fuel (ks : σ) (st : Fiemap) ks1 st1,
      queryLoop K fuel ks st = .success ks1 st1 →
      ∃ stA ksA es, OnlyStartDiffers st stA ∧
        K ksA stA.fiemap = some (ks1, .ok es) ∧
        Fiemap.get_extents_post (.ok es) stA = some (st1, none) := by
  intro fuel
  induction fuel with
  | zero => intro ks st ks1 st1 h; cases h
  | succ n ih =>
    intro ks st ks1 st1 h
    unfold queryLoop at h
    split at h
    · cases h
    · rename_i stB hpre
      split at h
      · cases h
      · rename_i p ks' r hq
        split at h
        · cases h
        · rename_i st2 hpost
          injection h with h1 h2
          subst h1
          subst h2
          cases r with
          | err k' =>
            exfalso
            unfold Fiemap.get_extents_post at hpost
            simp at hpost
          | ok es =>
            exact ⟨stB, ks, es, get_extents_pre_onlyStart hpre, hq, hpost⟩
        · rename_i st2 hpost
          obtain ⟨-, hst2⟩ := post_err_char hpost
          subst hst2
          obtain ⟨stA, ksA, es, hd, hk, hp⟩ := ih _ _ _ _ h
          exact ⟨stA, ksA, es,
            onlyStartDiffers_trans (get_extents_pre_onlyStart hpre) hd, hk, hp⟩
        · cases h

/-- C3: after every successful kernel query, the reader is exhausted iff
the returned count is zero or the last filled slot carries `LAST`; and
for a file with zero extents the first pull issues exactly one query,
observes a zero count, and the whole sequence yields no items. -/
theorem C3_exhaustion_condition :
    (∀ (st : Fiemap) (es : List FiemapExtent) (st1 : Fiemap), st.ended = false →
      Fiemap.get_extents_post (.ok es) st = some (st1, none) →
      (st1.ended = true ↔ (st1.size = 0 ∨ ∃ last,
        st1.fiemap.fm_extents[st1.size - 1]? = some last ∧
        FiemapExtentFlags.contains last.fe_flags FiemapExtentFlags.LAST = true))) ∧
    (∀ (fuel : Nat) (tr : List IoctlResult), ∃ st1,
      Fiemap.next traceKernel (fuel + 1) (.ok [] :: tr) Fiemap.new =
        .out tr st1 none ∧ st1.size = 0 ∧ st1.ended = true) ∧
    (∀ fuel : Nat, Fiemap.run traceKernel fuel [.ok []] Fiemap.new = []) := by
  refine ⟨?_, ?_, ?_⟩
  · intro st es st1 hend h
    unfold Fiemap.get_extents_post at h
    simp only [] at h
    split at h
    case isTrue hz =>
      simp only [Option.some.injEq, Prod.mk.injEq, and_true] at h
      subst h
      simp only [true_iff]
      simp only [List.length_eq_zero] at hz ⊢
      exact Or.inl hz
    case isFalse hz =>
      split at h
      · cases h
      · rename_i last hl
        split at h
        case isTrue hflag =>
          simp only [Option.some.injEq, Prod.mk.injEq, and_true] at h
          subst h
          constructor
          · intro _
            exact Or.inr ⟨last, hl, hflag⟩
          · intro _
            rfl
        case isFalse hflag =>
          simp only [Option.some.injEq, Prod.mk.injEq, and_true] at h
          subst h
          constructor
          · intro hc
            rw [hend] at hc
            cases hc
          · rintro (hsz | ⟨last', hl', hf'⟩)
            · exact absurd hsz hz
            · rw [hl] at hl'
              injection hl' with he
              subst he
              exact absurd hf' hflag
  · intro fuel tr
    exact ⟨_, rfl, rfl, rfl⟩
  · intro fuel
    match fuel with
    | 0 => rfl
    | 1 => rfl
    | n + 2 => rfl

lemma queryLoop_succ {σ : Type} (K : Kernel σ) (n : Nat) (ks : σ) (st : Fiemap) :
    queryLoop K (n + 1) ks st =
      match st.get_extents_pre with
      | none => .panicked
      | some st1 =>
        match K ks st1.fiemap with
        | none => .stuck
        | some (ks1, r) =>
          match Fiemap.get_extents_post r st1 with
          | none => .panicked
          | some (st2, none) => .success ks1 st2
          | some (st2, some .interrupted) => queryLoop K n ks1 st2
          | some (st2, some (.other c)) => .failure ks1 st2 c := rfl

/-- C5: once a pull has returned `None`, every further pull returns
`None` with the reader state and the kernel oracle state unchanged (no
further query is issued): the reader is permanently exhausted. -/
theorem C5_none_permanent :
    ∀ (σ : Type) (K : Kernel σ) (fuel : Nat) (ks : σ) (st : Fiemap)
      (ks1 : σ) (st1 : Fiemap),
      Fiemap.next K fuel ks st = .out ks1 st1 none →
      ∀ (fuel2 : Nat) (ks2 : σ), Fiemap.next K fuel2 ks2 st1 = .out ks2 st1 none := by
  intro σ K fuel ks st ks1 st1 h fuel2 ks2
  unfold Fiemap.next at h
  split at h
  case isTrue hA =>
    split at h
    case isTrue hE =>
      injection h with h1 h2 h3
      subst h2
      exact next_ended K fuel2 ks2 hE hA
    case isFalse hE =>
      split at h
      · cases h
      · cases h
      · injection h with h1 h2 h3
        cases h3
      · rename_i ks' st' hloop
        split at h
        case isTrue hsz =>
          injection h with h1 h2 h3
          subst h2
          obtain ⟨stA, ksA, es, hd, hk, hp⟩ :=
            queryLoop_success_char K fuel ks st ks' st' hloop
          obtain ⟨hc0, -, -, -, hse⟩ := post_ok_char hp
          exact next_ended K fuel2 ks2 (hse hsz) (by rw [hsz]; exact Nat.zero_le _)
        case isFalse hsz =>
          obtain ⟨e, -, hit, -, -⟩ := emit_out h
          cases hit
  case isFalse hA =>
    obtain ⟨e, -, hit, -, -⟩ := emit_out h
    cases hit

/-- Witness for C5: a concrete reader that has yielded `None` (empty
file) keeps yielding `None` without consuming any kernel response. -/
theorem C5_none_permanent_witness :
    ∃ st1, Fiemap.next traceKernel 1 [IoctlResult.ok []] Fiemap.new = .out [] st1 none ∧
      Fiemap.next traceKernel 1 ([] : List IoctlResult) st1 = .out [] st1 none :=
  ⟨_, rfl, C5_none_permanent _ traceKernel 1 [IoctlResult.ok []] Fiemap.new [] _ rfl 1 []⟩

/-- C2: a fatal (non-interrupted) query failure yields exactly one
`Some(Err(...))` item carrying the kernel's error, and every subsequent
pull returns `None` with no further kernel query — even if unread extents
existed in a later batch (the statement holds for every kernel oracle and
every remaining response sequence). -/
theorem C2_fatal_error_terminal :
    (∀ (σ : Type) (K : Kernel σ) (fuel : Nat) (ks : σ) (st : Fiemap)
       (ks1 : σ) (st1 : Fiemap) (k : ErrKind),
      Fiemap.next K fuel ks st = .out ks1 st1 (some (.error k)) →
      ∀ (fuel2 : Nat) (ks2 : σ), Fiemap.next K fuel2 ks2 st1 = .out ks2 st1 none) ∧
    (∀ (tr : List IoctlResult) (st st1 : Fiemap) (c : Nat) (fuel : Nat),
      st.size ≤ st.cur_idx → st.ended = false →
      st.get_extents_pre = some st1 →
      Fiemap.next traceKernel (fuel + 1) (.err (.other c) :: tr) st =
        .out tr { st1 with ended := true } (some (.error (.other c)))) := by
  constructor
  · intro σ K fuel ks st ks1 st1 k h fuel2 ks2
    unfold Fiemap.next at h
    split at h
    case isTrue hA =>
      split at h
      case isTrue hE =>
        injection h with h1 h2 h3
        cases h3
      case isFalse hE =>
        split at h
        · cases h
        · cases h
        · rename_i ks' st2 c hloop
          injection h with h1 h2 h3
          subst h2
          obtain ⟨s, rfl⟩ := queryLoop_failure_char K fuel ks st ks' st2 c hloop
          exact next_ended K fuel2 ks2 rfl hA
        · rename_i ks' st' hloop
          split at h
          case isTrue hsz =>
            injection h with h1 h2 h3
            cases h3
          case isFalse hsz =>
            obtain ⟨e, -, hit, -, -⟩ := emit_out h
            cases hit
    case isFalse hA =>
      obtain ⟨e, -, hit, -, -⟩ := emit_out h
      cases hit
  · intro tr st st1 c fuel hA hE hpre
    unfold Fiemap.next
    rw [if_pos hA, hE]
    simp only [Bool.false_eq_true, if_false]
    rw [queryLoop_succ]
    simp only [hpre, traceKernel, Fiemap.get_extents_post]

/-- Witness for C2: a reader whose very first query fails with error
code 5 yields the error item, then `None` on a later pull. -/
theorem C2_fatal_error_terminal_witness :
    (Fiemap.new.size ≤ Fiemap.new.cur_idx ∧ Fiemap.new.ended = false ∧
     Fiemap.new.get_extents_pre = some Fiemap.new) ∧
    Fiemap.next traceKernel 1 [IoctlResult.err (.other 5)] Fiemap.new =
      .out [] { Fiemap.new with ended := true } (some (.error (.other 5))) ∧
    Fiemap.next traceKernel 3 ([] : List IoctlResult) { Fiemap.new with ended := true } =
      .out [] { Fiemap.new with ended := true } none := by
  refine ⟨⟨le_refl _, rfl, rfl⟩, ?_, ?_⟩
  · exact C2_fatal_error_terminal.2 [] Fiemap.new Fiemap.new 5 0 (le_refl _) rfl rfl
  · exact C2_fatal_error_terminal.1 (List IoctlResult) traceKernel 1
      [IoctlResult.err (.other 5)] Fiemap.new []
      { Fiemap.new with ended := true } (.other 5)
      (C2_fatal_error_terminal.2 [] Fiemap.new Fiemap.new 5 0 (le_refl _) rfl rfl) 3 []

/-- C10: error atomicity — when a pull yields an error item, the
successor state differs from the pre-pull state only in the exhausted
flag (set) and possibly the resume offset `fm_start` (written before the
failed call): cursor, returned count, slots and all other buffer fields
are exactly as they were. -/
theorem C10_error_atomicity :
    ∀ (σ : Type) (K : Kernel σ) (fuel : Nat) (ks : σ) (st : Fiemap)
      (ks1 : σ) (st1 : Fiemap) (k : ErrKind),
      Fiemap.next K fuel ks st = .out ks1 st1 (some (.error k)) →
      ∃ s, st1 = { st with
                   ended := true,
                   fiemap := { st.fiemap with fm_start := s } } := by
  intro σ K fuel ks st ks1 st1 k h
  unfold Fiemap.next at h
  split at h
  case isTrue hA =>
    split at h
    case isTrue hE =>
      injection h with h1 h2 h3
      cases h3
    case isFalse hE =>
      split at h
      · cases h
      · cases h
      · rename_i ks' st2 c hloop
        injection h with h1 h2 h3
        subst h2
        obtain ⟨s, rfl⟩ := queryLoop_failure_char K fuel ks st ks' st2 c hloop
        exact ⟨s, rfl⟩
      · rename_i ks' st' hloop
        split at h
        case isTrue hsz =>
          injection h with h1 h2 h3
          cases h3
        case isFalse hsz =>
          obtain ⟨e, -, hit, -, -⟩ := emit_out h
          cases hit
  case isFalse hA =>
    obtain ⟨e, -, hit, -, -⟩ := emit_out h
    cases hit

/-- Witness for C10 at a concrete failing first query. -/
theorem C10_error_atomicity_witness :
    Fiemap.next traceKernel 1 [IoctlResult.err (.other 7)] Fiemap.new =
      .out [] { Fiemap.new with ended := true } (some (.error (.other 7))) ∧
    ∃ s, { Fiemap.new with ended := true } =
      { Fiemap.new with
        ended := true,
        fiemap := { Fiemap.new.fiemap with fm_start := s } } :=
  ⟨rfl, C10_error_atomicity (List IoctlResult) traceKernel 1
    [IoctlResult.err (.other 7)] Fiemap.new []
    { Fiemap.new with ended := true } (.other 7) rfl⟩

/-- C4: a transiently interrupted kernel query is retried immediately and
transparently — a pull whose response sequence begins with an
interruption behaves exactly like the pull without it (same item, same
successor state, same remaining responses), and an interruption is never
surfaced: no yielded error item ever carries the interrupted kind. -/
theorem C4_interrupted_transparent :
    (∀ (tr : List IoctlResult) (st : Fiemap) (fuel : Nat),
      st.size ≤ st.cur_idx → st.ended = false →
      Fiemap.next traceKernel (fuel + 2) (.err .interrupted :: tr) st =
        Fiemap.next traceKernel (fuel + 1) tr st) ∧
    (∀ (σ : Type) (K : Kernel σ) (fuel : Nat) (ks : σ) (st : Fiemap)
       (ks1 : σ) (st1 : Fiemap) (k : ErrKind),
      Fiemap.next K fuel ks st = .out ks1 st1 (some (.error k)) →
      k ≠ .interrupted) := by
  constructor
  · intro tr st fuel hA hE
    unfold Fiemap.next
    rw [if_pos hA, hE]
    simp only [Bool.false_eq_true, if_false]
    suffices hq : queryLoop traceKernel (fuel + 2) (.err .interrupted :: tr) st =
        queryLoop traceKernel (fuel + 1) tr st by
      rw [hq, if_pos hA]
    cases hpre : st.get_extents_pre with
    | none =>
      rw [queryLoop_succ, queryLoop_succ, hpre]
    | some stB =>
      have hidem := get_extents_pre_idem hpre
      calc queryLoop traceKernel (fuel + 2) (.err .interrupted :: tr) st
          = queryLoop traceKernel (fuel + 1) tr stB := by
            rw [queryLoop_succ, hpre]
            simp only [traceKernel, Fiemap.get_extents_post]
        _ = queryLoop traceKernel (fuel + 1) tr st := by
            rw [queryLoop_succ, hidem]
            conv_rhs => rw [queryLoop_succ, hpre]
  · intro σ K fuel ks st ks1 st1 k h
    unfold Fiemap.next at h
    split at h
    case isTrue hA =>
      split at h
      case isTrue hE =>
        injection h with h1 h2 h3
        cases h3
      case isFalse hE =>
        split at h
        · cases h
        · cases h
        · rename_i ks' st2 c hloop
          injection h with h1 h2 h3
          injection h3 with h4
          injection h4 with h5
          rw [← h5]
          intro hc
          cases hc
        · rename_i ks' st' hloop
          split at h
          case isTrue hsz =>
            injection h with h1 h2 h3
            cases h3
          case isFalse hsz =>
            obtain ⟨e, -, hit, -, -⟩ := emit_out h
            cases hit
    case isFalse hA =>
      obtain ⟨e, -, hit, -, -⟩ := emit_out h
      cases hit

/-- Witness for C4: prepending an interruption to a concrete response
sequence leaves the pull's outcome unchanged. -/
theorem C4_interrupted_transparent_witness :
    (Fiemap.new.size ≤ Fiemap.new.cur_idx ∧ Fiemap.new.ended = false) ∧
    Fiemap.next traceKernel 2 (.err .interrupted :: [IoctlResult.ok []]) Fiemap.new =
      Fiemap.next traceKernel 1 [IoctlResult.ok []] Fiemap.new :=
  ⟨⟨le_refl _, rfl⟩,
   C4_interrupted_transparent.1 [IoctlResult.ok []] Fiemap.new 0 (le_refl _) rfl⟩

/-- Witness for C3: a one-extent batch whose slot carries `LAST`
exhausts the reader, matching the iff at a concrete input. -/
theorem C3_exhaustion_condition_witness :
    Fiemap.new.ended = false ∧
    Fiemap.get_extents_post (.ok [sampleLastExt]) Fiemap.new =
      some (sampleLastSt, none) ∧
    (sampleLastSt.ended = true ↔ (sampleLastSt.size = 0 ∨ ∃ last,
      sampleLastSt.fiemap.fm_extents[sampleLastSt.size - 1]? = some last ∧
      FiemapExtentFlags.contains last.fe_flags FiemapExtentFlags.LAST = true)) := by
  refine ⟨rfl, by decide, ?_⟩
  exact C3_exhaustion_condition.1 Fiemap.new [sampleLastExt] sampleLastSt rfl (by decide)

lemma onlyStartDiffers_inv {a b : Fiemap} (hd : OnlyStartDiffers a b)
    (h : ReaderInv a) : ReaderInv b := by
  obtain ⟨s, rfl⟩ := hd
  exact h

lemma pre_some_of_inv {st : Fiemap} (h : ReaderInv st) :
    ∃ st1, st.get_extents_pre = some st1 := by
  unfold Fiemap.get_extents_pre
  by_cases hsz : st.size = 0
  · simp [hsz]
  · rw [if_pos hsz]
    have hlt : st.size - 1 < st.fiemap.fm_extents.length := by
      obtain ⟨-, h2, h3, -⟩ := h
      omega
    rw [List.getElem?_eq_getElem hlt]
    exact ⟨_, rfl⟩

lemma post_ok_some_of_inv {es : List FiemapExtent} {st : Fiemap}
    (h : ReaderInv st) (hb : es.length ≤ st.fiemap.fm_extent_count) :
    ∃ st1, Fiemap.get_extents_post (.ok es) st = some (st1, none) := by
  unfold Fiemap.get_extents_post
  simp only []
  by_cases hz : es.length = 0
  · rw [if_pos hz]
    exact ⟨_, rfl⟩
  · rw [if_neg hz]
    obtain ⟨-, -, hlen, hcnt⟩ := h
    have hlt : es.length - 1 <
        ((es ++ st.fiemap.fm_extents.drop es.length).take
          st.fiemap.fm_extents.length).length := by
      simp only [List.length_take, List.length_append, List.length_drop]
      omega
    rw [List.getElem?_eq_getElem hlt]
    dsimp only
    split
    · exact ⟨_, rfl⟩
    · exact ⟨_, rfl⟩

lemma queryLoop_no_panic {σ : Type} (K : Kernel σ) (hK : KernelBounded K) :
    ∀ fuel (ks : σ) (st : Fiemap), ReaderInv st →
      queryLoop K fuel ks st ≠ .panicked := by
  intro fuel
  induction fuel with
  | zero => intro ks st hInv h; cases h
  | succ n ih =>
    intro ks st hInv h
    rw [queryLoop_succ] at h
    obtain ⟨stB, hpre⟩ := pre_some_of_inv hInv
    rw [hpre] at h
    dsimp only at h
    have hInvB : ReaderInv stB :=
      onlyStartDiffers_inv (get_extents_pre_onlyStart hpre) hInv
    cases hq : K ks stB.fiemap with
    | none => rw [hq] at h; dsimp only at h; cases h
    | some p =>
      obtain ⟨ks', r⟩ := p
      rw [hq] at h
      dsimp only at h
      cases r with
      | err k =>
        simp only [Fiemap.get_extents_post] at h
        cases k with
        | interrupted => exact ih ks' stB hInvB h
        | other c => cases h
      | ok es =>
        have hb : es.length ≤ stB.fiemap.fm_extent_count := hK ks stB.fiemap ks' es hq
        obtain ⟨st1, hpost⟩ := post_ok_some_of_inv hInvB hb
        rw [hpost] at h
        dsimp only at h
        cases h

lemma emit_no_panic {σ : Type} (ks : σ) {st : Fiemap}
    (h : st.cur_idx < st.fiemap.fm_extents.length) :
    Fiemap.emit ks st ≠ .panicked := by
  unfold Fiemap.emit
  rw [List.getElem?_eq_getElem h]
  dsimp only
  intro hc
  cases hc

lemma next_no_panic {σ : Type} (K : Kernel σ) (hK : KernelBounded K)
    (fuel : Nat) (ks : σ) (st : Fiemap) (hInv : ReaderInv st) :
    Fiemap.next K fuel ks st ≠ .panicked := by
  unfold Fiemap.next
  split
  case isTrue hA =>
    split
    case isTrue hE => intro hc; cases hc
    case isFalse hE =>
      cases hloop : queryLoop K fuel ks st with
      | stuck => intro hc; cases hc
      | panicked => exact absurd hloop (queryLoop_no_panic K hK fuel ks st hInv)
      | failure ks1 st1 c => intro hc; cases hc
      | success ks1 st1 =>
        dsimp only
        split
        · intro hc; cases hc
        · obtain ⟨stA, ksA, es, hd, hk, hp⟩ :=
            queryLoop_success_char K fuel ks st ks1 st1 hloop
          obtain ⟨hc0, -, -, hlen, -⟩ := post_ok_char hp
          have hInvA : ReaderInv stA := onlyStartDiffers_inv hd hInv
          apply emit_no_panic
          rw [hc0, hlen, hInvA.2.2.1]
          exact Nat.pos_of_ne_zero (by simp [PAGESIZE])
  case isFalse hA =>
    apply emit_no_panic
    obtain ⟨h1, h2, h3, -⟩ := hInv
    omega

lemma next_inv {σ : Type} (K : Kernel σ) (hK : KernelBounded K)
    {fuel : Nat} {ks : σ} {st : Fiemap} (hInv : ReaderInv st)
    {ks1 : σ} {st1 : Fiemap} {it : Option (Except ErrKind FiemapExtent)}
    (h : Fiemap.next K fuel ks st = .out ks1 st1 it) : ReaderInv st1 := by
  unfold Fiemap.next at h
  split at h
  case isTrue hA =>
    split at h
    case isTrue hE =>
      injection h with h1 h2 h3
      subst h2
      exact hInv
    case isFalse hE =>
      split at h
      · cases h
      · cases h
      · rename_i ks' st2 c hloop
        injection h with h1 h2 h3
        subst h2
        have hInv2 : ReaderInv st2 :=
          onlyStartDiffers_inv (queryLoop_failure_char K fuel ks st ks' st2 c hloop) hInv
        exact ⟨hInv2.1, hInv2.2.1, hInv2.2.2.1, hInv2.2.2.2⟩
      · rename_i ks' st' hloop
        obtain ⟨stA, ksA, es, hd, hk, hp⟩ :=
          queryLoop_success_char K fuel ks st ks' st' hloop
        obtain ⟨hc0, hsz, hcnt, hlen, -⟩ := post_ok_char hp
        have hInvA : ReaderInv stA := onlyStartDiffers_inv hd hInv
        have hb : es.length ≤ stA.fiemap.fm_extent_count := hK ksA stA.fiemap ks' es hk
        have hInv' : ReaderInv st' := by
          refine ⟨?_, ?_, ?_, ?_⟩
          · rw [hc0]; exact Nat.zero_le _
          · rw [hsz]; rw [hInvA.2.2.2] at hb; exact hb
          · rw [hlen]; exact hInvA.2.2.1
          · rw [hcnt]; exact hInvA.2.2.2
        split at h
        case isTrue hsz0 =>
          injection h with h1 h2 h3
          subst h2
          exact hInv'
        case isFalse hsz0 =>
          obtain ⟨e, -, -, -, hst1⟩ := emit_out h
          subst hst1
          refine ⟨?_, hInv'.2.1, hInv'.2.2.1, hInv'.2.2.2⟩
          dsimp only
          omega
  case isFalse hA =>
    obtain ⟨e, -, -, -, hst1⟩ := emit_out h
    subst hst1
    obtain ⟨h1, h2, h3, h4⟩ := hInv
    exact ⟨by dsimp only; omega, h2, h3, h4⟩

lemma reach_inv {σ : Type} {K : Kernel σ} (hK : KernelBounded K) :
    ∀ {ks : σ} {st : Fiemap}, Reach K ks st → ReaderInv st := by
  intro ks st h
  induction h with
  | init ks => exact ⟨Nat.le_refl 0, by decide, by decide, rfl⟩
  | step hr hn ih => exact next_inv K hK ih hn

/-- C7: under the precondition that the kernel never reports more
extents than the requested capacity (`fm_extent_count`, fixed at 8),
every reachable reader state satisfies `cursor ≤ returned_count ≤ 8`, and
no pull from a reachable state ever hits an out-of-bounds slot access
(the Rust panic): failures are only ever expressed through the yielded
error item. -/
theorem C7_no_panic :
    ∀ (σ : Type) (K : Kernel σ), KernelBounded K →
    ∀ (ks : σ) (st : Fiemap), Reach K ks st →
      (st.cur_idx ≤ st.size ∧ st.size ≤ 8) ∧
      ∀ fuel : Nat, Fiemap.next K fuel ks st ≠ .panicked := by
  intro σ K hK ks st hr
  have hInv := reach_inv hK hr
  refine ⟨⟨hInv.1, ?_⟩, fun fuel => next_no_panic K hK fuel ks st hInv⟩
  have := hInv.2.1
  simpa [PAGESIZE] using this

/-- Witness for C7: the empty-file honest kernel is bounded, and from
the freshly constructed reader no pull panics. -/
theorem C7_no_panic_witness :
    KernelBounded (honestKernel []) ∧
    ((Fiemap.new.cur_idx ≤ Fiemap.new.size ∧ Fiemap.new.size ≤ 8) ∧
     ∀ fuel : Nat, Fiemap.next (honestKernel []) fuel () Fiemap.new ≠ .panicked) := by
  have hb : KernelBounded (honestKernel []) := by
    intro ks req ks1 es h
    unfold honestKernel at h
    simp only [Option.some.injEq, Prod.mk.injEq, IoctlResult.ok.injEq] at h
    obtain ⟨-, h2⟩ := h
    subst h2
    simp
  exact ⟨hb, C7_no_panic Unit (honestKernel []) hb () Fiemap.new (Reach.init ())⟩

lemma run_succ {σ : Type} (K : Kernel σ) (n : Nat) (ks : σ) (st : Fiemap) :
    Fiemap.run K (n + 1) ks st =
      match Fiemap.next K n ks st with
      | .out ks1 st1 (some it) => it :: Fiemap.run K n ks1 st1
      | _ => [] := rfl

lemma filter_pos_all {l : List FiemapExtent} (hpos : ∀ e ∈ l, 0 < e.fe_length) :
    (l.filter fun e => decide (0 < e.fe_logical + e.fe_length)) = l := by
  rw [List.filter_eq_self]
  intro e he
  have := hpos e he
  simp only [decide_eq_true_eq]
  omega

lemma filter_resume (xs ys : List FiemapExtent) (y : FiemapExtent)
    (hpw : List.Pairwise (fun a b => a.fe_logical + a.fe_length ≤ b.fe_logical)
      (xs ++ y :: ys))
    (hpos : ∀ e ∈ ys, 0 < e.fe_length) :
    ((xs ++ y :: ys).filter fun e =>
      decide (y.fe_logical + y.fe_length < e.fe_logical + e.fe_length)) = ys := by
  rw [List.filter_append]
  obtain ⟨hxs, hcons, hcross⟩ := List.pairwise_append.mp hpw
  have h1 : (xs.filter fun e =>
      decide (y.fe_logical + y.fe_length < e.fe_logical + e.fe_length)) = [] := by
    rw [List.filter_eq_nil_iff]
    intro x hx
    have hr := hcross x hx y (List.mem_cons_self y ys)
    simp only [decide_eq_true_eq]
    omega
  have hyys := List.pairwise_cons.mp hcons
  have h2 : ((y :: ys).filter fun e =>
      decide (y.fe_logical + y.fe_length < e.fe_logical + e.fe_length)) = ys := by
    simp only [List.filter_cons]
    rw [if_neg (by simp)]
    rw [List.filter_eq_self]
    intro z hz
    have hr := hyys.1 z hz
    have hp := hpos z hz
    simp only [decide_eq_true_eq]
    omega
  rw [h1, h2, List.nil_append]

lemma take_drop_one {α : Type} (l : List α) (n : Nat) (h : 1 ≤ n) :
    (l.take n).drop 1 ++ l.drop n = l.drop 1 := by
  rw [List.drop_take]
  rw [show l.drop n = (l.drop 1).drop (n - 1) by
    rw [List.drop_drop]
    congr 1
    omega]
  exact List.take_append_drop _ _

lemma mem_dropLast_append_cons {α : Type} (xs : List α) (y : α) (ys : List α)
    (h : ys ≠ []) : y ∈ (xs ++ y :: ys).dropLast := by
  induction xs with
  | nil =>
    cases ys with
    | nil => exact absurd rfl h
    | cons b bs => exact List.mem_cons_self _ _
  | cons a as ih =>
    have hne : as ++ y :: ys ≠ [] := by simp
    rw [List.cons_append]
    cases hcs : as ++ y :: ys with
    | nil => exact absurd hcs hne
    | cons c cs =>
      rw [← hcs]
      have : (a :: (as ++ y :: ys)).dropLast = a :: (as ++ y :: ys).dropLast := by
        rw [hcs]
        rfl
      rw [this]
      exact List.mem_cons_of_mem a ih

lemma drain (all : List FiemapExtent)
    (Hpw : List.Pairwise (fun a b => a.fe_logical + a.fe_length ≤ b.fe_logical) all)
    (Hpos : ∀ e ∈ all, 0 < e.fe_length)
    (Hmod : ∀ e ∈ all, e.fe_logical + e.fe_length < U64MOD)
    (HL : ∀ e ∈ all.dropLast,
      FiemapExtentFlags.contains e.fe_flags FiemapExtentFlags.LAST = false) :
    ∀ (fuel : Nat) (done b rest junk : List FiemapExtent) (lb : FiemapExtent)
      (st : Fiemap),
      all = done ++ b ++ rest →
      b ≠ [] →
      b.getLast? = some lb →
      st.size = b.length →
      st.cur_idx ≤ b.length →
      st.fiemap.fm_extents = b ++ junk →
      (b ++ junk).length = PAGESIZE →
      st.fiemap.fm_extent_count = PAGESIZE →
      st.ended = FiemapExtentFlags.contains lb.fe_flags FiemapExtentFlags.LAST →
      (st.ended = true → rest = []) →
      b.length - st.cur_idx + rest.length + 2 ≤ fuel →
      Fiemap.run (honestKernel all) fuel () st =
        (b.drop st.cur_idx ++ rest).map Except.ok := by
  intro fuel
  induction fuel with
  | zero =>
    intro done b rest junk lb st Hsplit Hb Hlast Hsz Hcur Hext Hjl Hcnt Hend Hrest Hfuel
    omega
  | succ n ih =>
    intro done b rest junk lb st Hsplit Hb Hlast Hsz Hcur Hext Hjl Hcnt Hend Hrest Hfuel
    have hbl : 0 < b.length := List.length_pos.mpr Hb
    by_cases hcur : st.cur_idx < b.length
    · -- fast path: drain the current batch
      have hA : ¬ (st.size ≤ st.cur_idx) := by omega
      have hlt : st.cur_idx < (b ++ junk).length := by
        rw [List.length_append]; omega
      have hltb : st.cur_idx < b.length := hcur
      have hemit : Fiemap.next (honestKernel all) n () st =
          .out () { st with cur_idx := st.cur_idx + 1 }
            (some (.ok (b.get ⟨st.cur_idx, hltb⟩))) := by
        rw [List.get_eq_getElem]
        unfold Fiemap.next
        rw [if_neg hA]
        unfold Fiemap.emit
        rw [Hext, List.getElem?_append]
        rw [if_pos hltb, List.getElem?_eq_getElem hltb]
      rw [run_succ, hemit]
      dsimp only
      rw [ih done b rest junk lb { st with cur_idx := st.cur_idx + 1 }
        Hsplit Hb Hlast Hsz (by dsimp only; omega) Hext Hjl Hcnt Hend Hrest
        (by dsimp only; omega)]
      dsimp only
      rw [List.drop_eq_getElem_cons hltb]
      simp only [List.cons_append, List.map_cons, List.get_eq_getElem]
    · -- buffer drained: cur_idx = b.length
      have hcureq : st.cur_idx = b.length := by omega
      have hA : st.size ≤ st.cur_idx := by omega
      cases hEnd : st.ended with
      | true =>
        have hrnil : rest = [] := Hrest hEnd
        rw [run_succ, next_ended (honestKernel all) n () hEnd hA]
        rw [hrnil, hcureq, List.append_nil, List.drop_length]
        rfl
      | false =>
        -- a new query is issued
        have hlbB : lb ∈ b := List.mem_of_mem_getLast? Hlast
        have hlbAll : lb ∈ all := by
          rw [Hsplit]
          simp only [List.mem_append]
          exact Or.inl (Or.inr hlbB)
        have hszne : st.size ≠ 0 := by omega
        have hlast_idx : b.length - 1 < b.length := by omega
        have hpre : st.get_extents_pre =
            some { st with fiemap :=
              { st.fiemap with
                fm_start := (lb.fe_logical + lb.fe_length) % U64MOD } } := by
          unfold Fiemap.get_extents_pre
          rw [if_pos hszne, Hext, Hsz, List.getElem?_append, if_pos hlast_idx]
          rw [← List.getLast?_eq_getElem?, Hlast]
        set st1 : Fiemap := { st with fiemap :=
          { st.fiemap with
            fm_start := (lb.fe_logical + lb.fe_length) % U64MOD } } with hst1
        have hstart : st1.fiemap.fm_start = lb.fe_logical + lb.fe_length :=
          Nat.mod_eq_of_lt (Hmod lb hlbAll)
        -- the honest kernel resumes exactly after lb and returns the next batch
        have hbdl : b.dropLast ++ [lb] = b := by
          have h1 := List.dropLast_append_getLast Hb
          have h2 := List.getLast?_eq_getLast_of_ne_nil Hb
          rw [Hlast] at h2
          injection h2 with h3
          rw [← h3] at h1
          exact h1
        have hsplit2 : all = (done ++ b.dropLast) ++ lb :: rest := by
          rw [Hsplit, ← hbdl]
          simp [List.append_assoc]
        have hfil : (all.filter fun e =>
            decide (st1.fiemap.fm_start < e.fe_logical + e.fe_length)) = rest := by
          rw [hstart, hsplit2]
          refine filter_resume _ _ _ (by rw [← hsplit2]; exact Hpw) ?_
          intro e he
          refine Hpos e ?_
          rw [hsplit2]
          simp only [List.mem_append, List.mem_cons]
          exact Or.inr (Or.inr he)
        have hkq : honestKernel all () st1.fiemap =
            some ((), .ok (rest.take PAGESIZE)) := by
          unfold honestKernel
          rw [hfil, show st1.fiemap.fm_extent_count = PAGESIZE from Hcnt]
        cases rest with
        | nil =>
          -- empty next batch: zero extents returned, sequence over
          have hq : queryLoop (honestKernel all) n () st =
              .success () ({ st1 with
                fiemap := { st1.fiemap with fm_mapped_extents := 0 },
                cur_idx := 0, size := 0, ended := true }) := by
            obtain ⟨m, rfl⟩ : ∃ m, n = m + 1 := ⟨n - 1, by omega⟩
            rw [queryLoop_succ, hpre]
            dsimp only
            rw [hkq]
            dsimp only
            rw [show (List.take PAGESIZE ([] : List FiemapExtent)) = [] from rfl,
              post_ok_nil st1]
          have hnext : Fiemap.next (honestKernel all) n () st =
              .out () ({ st1 with
                fiemap := { st1.fiemap with fm_mapped_extents := 0 },
                cur_idx := 0, size := 0, ended := true }) none := by
            unfold Fiemap.next
            rw [if_pos hA, hEnd]
            simp only [Bool.false_eq_true, if_false]
            rw [hq]
            rfl
          rw [run_succ, hnext]
          rw [hcureq, List.append_nil, List.drop_length]
          rfl
        | cons r0 rest' =>
          have hesne : (r0 :: rest').take PAGESIZE ≠ [] := by
            simp [PAGESIZE]
          set es : List FiemapExtent := (r0 :: rest').take PAGESIZE with hes
          have heslen : es.length ≤ PAGESIZE := by
            rw [hes]
            simp [List.length_take]
          have heslpos : 0 < es.length := List.length_pos.mpr hesne
          obtain ⟨esL, hesL⟩ : ∃ esL, es.getLast? = some esL :=
            ⟨es.getLast hesne, List.getLast?_eq_getLast_of_ne_nil hesne⟩
          set junk2 : List FiemapExtent :=
            ((b ++ junk).drop es.length).take (PAGESIZE - es.length) with hjunk2
          have hext2 : (es ++ (b ++ junk).drop es.length).take (b ++ junk).length =
              es ++ junk2 := by
            rw [Hjl, List.take_append_eq_append_take,
              List.take_of_length_le heslen]
          have hlook : (es ++ junk2)[es.length - 1]? = some esL := by
            rw [List.getElem?_append, if_pos (by omega)]
            rw [← List.getLast?_eq_getElem?, hesL]
          have hj2len : (es ++ junk2).length = PAGESIZE := by
            simp only [List.length_append, hjunk2, List.length_take,
              List.length_drop, Hjl]
            omega
          -- the successful query's post-processing
          have hpost : Fiemap.get_extents_post (.ok es) st1 =
              some ({ st1 with
                fiemap := { st1.fiemap with
                  fm_mapped_extents := es.length, fm_extents := es ++ junk2 },
                cur_idx := 0, size := es.length,
                ended := FiemapExtentFlags.contains esL.fe_flags
                  FiemapExtentFlags.LAST }, none) := by
            unfold Fiemap.get_extents_post
            dsimp only
            rw [if_neg (by omega)]
            rw [show st1.fiemap.fm_extents = b ++ junk from Hext]
            rw [hext2, hlook]
            dsimp only
            by_cases hf : FiemapExtentFlags.contains esL.fe_flags
                FiemapExtentFlags.LAST = true
            · rw [if_pos hf, hf]
            · rw [if_neg hf]
              rw [Bool.not_eq_true] at hf
              rw [hf]
              rw [show st1.ended = false from hEnd]
          set st2 : Fiemap := { st1 with
            fiemap := { st1.fiemap with
              fm_mapped_extents := es.length, fm_extents := es ++ junk2 },
            cur_idx := 0, size := es.length,
            ended := FiemapExtentFlags.contains esL.fe_flags
              FiemapExtentFlags.LAST } with hst2
          have hsz2 : st2.size = es.length := by rw [hst2]
          have hext2e : st2.fiemap.fm_extents = es ++ junk2 := by rw [hst2]
          have hcur2 : st2.cur_idx = 0 := by rw [hst2]
          have hq : queryLoop (honestKernel all) n () st = .success () st2 := by
            obtain ⟨m, rfl⟩ : ∃ m, n = m + 1 := ⟨n - 1, by omega⟩
            rw [queryLoop_succ, hpre]
            dsimp only
            rw [hkq]
            dsimp only
            rw [hpost]
          have hr0 : (es ++ junk2)[(0 : Nat)]? = some r0 := by
            rw [List.getElem?_append, if_pos heslpos, hes]
            simp [PAGESIZE]
          have hnext : Fiemap.next (honestKernel all) n () st =
              .out () { st2 with cur_idx := 1 } (some (.ok r0)) := by
            unfold Fiemap.next
            rw [if_pos hA, hEnd]
            simp only [Bool.false_eq_true, if_false]
            rw [hq]
            dsimp only
            rw [if_neg (by omega)]
            unfold Fiemap.emit
            rw [hext2e, hcur2, hr0]
          rw [run_succ, hnext]
          dsimp only
          -- apply the induction hypothesis on the new batch
          have hrest_eq : es ++ (r0 :: rest').drop PAGESIZE = r0 :: rest' := by
            rw [hes]
            exact List.take_append_drop _ _
          have hsplit' : all = (done ++ b) ++ es ++ (r0 :: rest').drop PAGESIZE := by
            rw [Hsplit]
            conv_lhs => rw [← hrest_eq]
            simp [List.append_assoc]
          have hrest' : ({ st2 with cur_idx := 1 } : Fiemap).ended = true →
              (r0 :: rest').drop PAGESIZE = [] := by
            intro hend2
            by_contra hne
            have hmem : esL ∈ all.dropLast := by
              have : all = ((done ++ b) ++ es.dropLast) ++
                  esL :: (r0 :: rest').drop PAGESIZE := by
                rw [hsplit']
                have hdl : es.dropLast ++ [esL] = es := by
                  have h1 := List.dropLast_append_getLast hesne
                  have h2 := List.getLast?_eq_getLast_of_ne_nil hesne
                  rw [hesL] at h2
                  injection h2 with h3
                  rw [← h3] at h1
                  exact h1
                rw [← hdl]
                simp [List.append_assoc]
              rw [this]
              exact mem_dropLast_append_cons _ _ _ hne
            have hfalse := HL esL hmem
            have : ({ st2 with cur_idx := 1 } : Fiemap).ended =
                FiemapExtentFlags.contains esL.fe_flags FiemapExtentFlags.LAST := rfl
            rw [this, hfalse] at hend2
            cases hend2
          rw [ih (done ++ b) es ((r0 :: rest').drop PAGESIZE) junk2 esL
            { st2 with cur_idx := 1 }
            hsplit' hesne hesL rfl (by dsimp only; omega) rfl hj2len
            (by exact Hcnt) rfl hrest'
            (by
              dsimp only
              have h1 : es.length + ((r0 :: rest').drop PAGESIZE).length =
                  (r0 :: rest').length := by
                rw [← List.length_append, hrest_eq]
              omega)]
          -- final list algebra
          rw [hcureq, List.drop_length, List.nil_append]
          have hdrop1 : es.drop 1 ++ (r0 :: rest').drop PAGESIZE =
              (r0 :: rest').drop 1 := by
            rw [hes]
            exact take_drop_one _ _ (by simp [PAGESIZE])
          dsimp only
          rw [hdrop1]
          rfl

/-- C1: (a) whenever a new query is issued after at least one extent has
been returned, the buffer's `fm_start` is set to `logical_offset +
length` of the final slot of the prior batch (u64 addition); (b) against
an honest kernel that reports each batch's extents in file order starting
at the requested offset, a file with arbitrarily many extents (any number
of batches) is drained completely: the concatenation of all yielded
records is exactly the file's extent list — non-decreasing
`logical_offset` order, no duplicated and no skipped extents at batch
boundaries. -/
theorem C1_resume_and_order :
    (∀ (st st1 : Fiemap), st.size ≠ 0 → st.get_extents_pre = some st1 →
      ∃ last, st.fiemap.fm_extents[st.size - 1]? = some last ∧
        st1.fiemap.fm_start = (last.fe_logical + last.fe_length) % U64MOD) ∧
    (∀ all : List FiemapExtent,
      List.Pairwise (fun a b => a.fe_logical + a.fe_length ≤ b.fe_logical) all →
      (∀ e ∈ all, 0 < e.fe_length) →
      (∀ e ∈ all, e.fe_logical + e.fe_length < U64MOD) →
      (∀ e ∈ all.dropLast,
        FiemapExtentFlags.contains e.fe_flags FiemapExtentFlags.LAST = false) →
      Fiemap.run (honestKernel all) (all.length + 2) () Fiemap.new =
        all.map Except.ok) := by
  constructor
  · intro st st1 h1 h2
    unfold Fiemap.get_extents_pre at h2
    rw [if_pos h1] at h2
    cases hl : st.fiemap.fm_extents[st.size - 1]? with
    | none => rw [hl] at h2; cases h2
    | some last =>
      rw [hl] at h2
      injection h2 with h3
      subst h3
      exact ⟨last, rfl, rfl⟩
  · intro all Hpw Hpos Hmod HL
    cases hall : all with
    | nil => decide
    | cons a0 all' =>
      subst hall
      have hesne : (a0 :: all').take PAGESIZE ≠ [] := by simp [PAGESIZE]
      set es : List FiemapExtent := (a0 :: all').take PAGESIZE with hes
      have heslen : es.length ≤ PAGESIZE := by
        rw [hes]; simp [List.length_take]
      have heslpos : 0 < es.length := List.length_pos.mpr hesne
      obtain ⟨esL, hesL⟩ : ∃ esL, es.getLast? = some esL :=
        ⟨es.getLast hesne, List.getLast?_eq_getLast_of_ne_nil hesne⟩
      have hkq : honestKernel (a0 :: all') () Fiemap.new.fiemap =
          some ((), .ok es) := by
        unfold honestKernel
        rw [show Fiemap.new.fiemap.fm_start = 0 from rfl,
          filter_pos_all Hpos,
          show Fiemap.new.fiemap.fm_extent_count = PAGESIZE from rfl, hes]
      set junk2 : List FiemapExtent :=
        ((List.replicate PAGESIZE FiemapExtent.new).drop es.length).take
          (PAGESIZE - es.length) with hjunk2
      have hrl : (List.replicate PAGESIZE FiemapExtent.new).length = PAGESIZE := by
        simp
      have hext2 : (es ++ (List.replicate PAGESIZE FiemapExtent.new).drop
          es.length).take (List.replicate PAGESIZE FiemapExtent.new).length =
          es ++ junk2 := by
        rw [hrl, List.take_append_eq_append_take, List.take_of_length_le heslen]
      have hlook : (es ++ junk2)[es.length - 1]? = some esL := by
        rw [List.getElem?_append, if_pos (by omega)]
        rw [← List.getLast?_eq_getElem?, hesL]
      have hj2len : (es ++ junk2).length = PAGESIZE := by
        simp only [List.length_append, hjunk2, List.length_take,
          List.length_drop, hrl]
        omega
      have hpost : Fiemap.get_extents_post (.ok es) Fiemap.new =
          some ({ Fiemap.new with
            fiemap := { Fiemap.new.fiemap with
              fm_mapped_extents := es.length, fm_extents := es ++ junk2 },
            cur_idx := 0, size := es.length,
            ended := FiemapExtentFlags.contains esL.fe_flags
              FiemapExtentFlags.LAST }, none) := by
        unfold Fiemap.get_extents_post
        dsimp only
        rw [if_neg (by omega)]
        rw [show Fiemap.new.fiemap.fm_extents =
          List.replicate PAGESIZE FiemapExtent.new from rfl]
        rw [hext2, hlook]
        dsimp only
        by_cases hf : FiemapExtentFlags.contains esL.fe_flags
            FiemapExtentFlags.LAST = true
        · rw [if_pos hf, hf]
        · rw [if_neg hf]
          rw [Bool.not_eq_true] at hf
          rw [hf]
          rfl
      set st2 : Fiemap := { Fiemap.new with
        fiemap := { Fiemap.new.fiemap with
          fm_mapped_extents := es.length, fm_extents := es ++ junk2 },
        cur_idx := 0, size := es.length,
        ended := FiemapExtentFlags.contains esL.fe_flags
          FiemapExtentFlags.LAST } with hst2
      have hsz2 : st2.size = es.length := by rw [hst2]
      have hext2e : st2.fiemap.fm_extents = es ++ junk2 := by rw [hst2]
      have hcur2 : st2.cur_idx = 0 := by rw [hst2]
      have hq : queryLoop (honestKernel (a0 :: all')) ((a0 :: all').length + 1)
          () Fiemap.new = .success () st2 := by
        rw [queryLoop_succ]
        rw [show Fiemap.new.get_extents_pre = some Fiemap.new from rfl]
        dsimp only
        rw [hkq]
        dsimp only
        rw [hpost]
      have hr0 : (es ++ junk2)[(0 : Nat)]? = some a0 := by
        rw [List.getElem?_append, if_pos heslpos, hes]
        simp [PAGESIZE]
      have hnext : Fiemap.next (honestKernel (a0 :: all'))
          ((a0 :: all').length + 1) () Fiemap.new =
          .out () { st2 with cur_idx := 1 } (some (.ok a0)) := by
        unfold Fiemap.next
        rw [if_pos (show Fiemap.new.size ≤ Fiemap.new.cur_idx from Nat.le.refl),
          show Fiemap.new.ended = false from rfl]
        simp only [Bool.false_eq_true, if_false]
        rw [hq]
        dsimp only
        rw [if_neg (by omega)]
        unfold Fiemap.emit
        rw [hext2e, hcur2, hr0]
      rw [show (a0 :: all').length + 2 = ((a0 :: all').length + 1) + 1 from rfl,
        run_succ, hnext]
      dsimp only
      have hrest_eq : es ++ (a0 :: all').drop PAGESIZE = a0 :: all' := by
        rw [hes]
        exact List.take_append_drop _ _
      have hsplit' : (a0 :: all' : List FiemapExtent) =
          [] ++ es ++ (a0 :: all').drop PAGESIZE := by
        conv_lhs => rw [← hrest_eq]
        simp
      have hrest' : ({ st2 with cur_idx := 1 } : Fiemap).ended = true →
          (a0 :: all').drop PAGESIZE = [] := by
        intro hend2
        by_contra hne
        have hdl : es.dropLast ++ [esL] = es := by
          have h1 := List.dropLast_append_getLast hesne
          have h2 := List.getLast?_eq_getLast_of_ne_nil hesne
          rw [hesL] at h2
          injection h2 with h3
          rw [← h3] at h1
          exact h1
        have hmem : esL ∈ (a0 :: all').dropLast := by
          have hthis : (a0 :: all' : List FiemapExtent) =
              (([] ++ es.dropLast) ++ esL :: (a0 :: all').drop PAGESIZE) := by
            calc a0 :: all' = es ++ (a0 :: all').drop PAGESIZE := hrest_eq.symm
              _ = (es.dropLast ++ [esL]) ++ (a0 :: all').drop PAGESIZE := by
                  rw [hdl]
              _ = (([] ++ es.dropLast) ++ esL :: (a0 :: all').drop PAGESIZE) := by
                  rw [List.append_assoc, List.singleton_append, List.nil_append]
          rw [hthis]
          exact mem_dropLast_append_cons _ _ _ hne
        have hfalse := HL esL hmem
        have hsh : ({ st2 with cur_idx := 1 } : Fiemap).ended =
            FiemapExtentFlags.contains esL.fe_flags FiemapExtentFlags.LAST := rfl
        rw [hsh, hfalse] at hend2
        cases hend2
      rw [drain (a0 :: all') Hpw Hpos Hmod HL ((a0 :: all').length + 1)
        [] es ((a0 :: all').drop PAGESIZE) junk2 esL { st2 with cur_idx := 1 }
        hsplit' hesne hesL rfl (by dsimp only; omega) rfl hj2len rfl rfl hrest'
        (by
          dsimp only
          have h1 : es.length + ((a0 :: all').drop PAGESIZE).length =
              (a0 :: all').length := by
            rw [← List.length_append, hrest_eq]
          omega)]
      have hdrop1 : es.drop 1 ++ (a0 :: all').drop PAGESIZE =
          (a0 :: all').drop 1 := by
        rw [hes]
        exact take_drop_one _ _ (by simp [PAGESIZE])
      dsimp only
      rw [hdrop1]
      rfl

/-- Witness for C1: the resume offset equation at a concrete one-slot
state, and a full drain of a concrete one-extent file. -/
theorem C1_resume_and_order_witness :
    (sampleLastSt.size ≠ 0 ∧
     sampleLastSt.get_extents_pre =
       some { sampleLastSt with
              fiemap := { sampleLastSt.fiemap with fm_start := 4 } } ∧
     ∃ last, sampleLastSt.fiemap.fm_extents[sampleLastSt.size - 1]? = some last ∧
       ({ sampleLastSt with
          fiemap := { sampleLastSt.fiemap with
                      fm_start := 4 } } : Fiemap).fiemap.fm_start =
         (last.fe_logical + last.fe_length) % U64MOD) ∧
    Fiemap.run (honestKernel [sampleLastExt]) 3 () Fiemap.new =
      [Except.ok sampleLastExt] := by
  refine ⟨⟨by decide, by decide, ?_⟩, ?_⟩
  · exact C1_resume_and_order.1 sampleLastSt _ (by decide) (by decide)
  · exact C1_resume_and_order.2 [sampleLastExt] (by decide) (by decide)
      (by decide) (by decide)
